import Mathlib

/-!
Verification of the command-execution / history / progress core of the
ublue-rebase-tool repository against its natural-language specification.

The Python sources are shallowly embedded as executable Lean definitions:

* `src/src/history_manager.py` — the history/audit store (`HistoryEntry`,
  `_load_history`, `add_entry`, `prune_old_entries`,
  `generate_security_report`, `_log_to_journal`).
* `src/src/registry_manager.py` — the registry query layer
  (`list_image_tags` sorting, `get_recent_images`).
* `src/flatpak-staging/lib/python3.11/site-packages/progress_tracker.py` —
  the progress tracker (`start_tracking`, `update_output`, `complete`).
* `CommandExecutor.execute_with_progress` — the executor source file is
  not part of the repository snapshot (only its unit tests are), so its
  entry guard is modelled from the spec and pinned by those tests.

Modelling conventions: Python dynamic values flowing through JSON are
embedded as the `JValue` type; machine floats used only as opaque
timestamps are embedded as `Int` (no arithmetic on them is relevant to
any claim beyond subtraction of clock readings); Python exceptions are
embedded as `Except`.
-/

/-- Embedded JSON value, the dynamic data flowing through
`json.load` / `HistoryEntry.from_dict` / `asdict`.  Numbers are embedded
as `Int`: no claim depends on fractional numeric values. -/
inductive JValue where
  | jnull : JValue
  | jbool (b : Bool) : JValue
  | jnum (n : Int) : JValue
  | jstr (s : String) : JValue
  | jarr (elems : List JValue) : JValue
  | jobj (fields : List (String × JValue)) : JValue

mutual

/-- Structural equality of embedded JSON values (Python `==` on the
values produced by `json.load`). -/
def jeq : JValue → JValue → Bool
  | JValue.jnull, JValue.jnull => true
  | JValue.jbool a, JValue.jbool b => a == b
  | JValue.jnum a, JValue.jnum b => a == b
  | JValue.jstr a, JValue.jstr b => a == b
  | JValue.jarr a, JValue.jarr b => jeqList a b
  | JValue.jobj a, JValue.jobj b => jeqObj a b
  | _, _ => false

/-- Pointwise `jeq` on JSON arrays. -/
def jeqList : List JValue → List JValue → Bool
  | [], [] => true
  | x :: xs, y :: ys => jeq x y && jeqList xs ys
  | _, _ => false

/-- Pointwise `jeq` on JSON object field lists. -/
def jeqObj : List (String × JValue) → List (String × JValue) → Bool
  | [], [] => true
  | (k₁, v₁) :: xs, (k₂, v₂) :: ys => k₁ == k₂ && jeq v₁ v₂ && jeqObj xs ys
  | _, _ => false

end

/-- Python truthiness of an embedded JSON value (`bool(x)`): `None`,
`False`, `0`, `""`, `[]` and `{}` are falsy, everything else truthy. -/
def jtruthy : JValue → Bool
  | JValue.jnull => false
  | JValue.jbool b => b
  | JValue.jnum n => n != 0
  | JValue.jstr s => s != ""
  | JValue.jarr elems => !elems.isEmpty
  | JValue.jobj fields => !fields.isEmpty

/-- Python `str()` of an embedded JSON value.  Scalar cases are exact;
the container cases (which no history field reaches in practice, and on
which no claim depends) are abbreviated placeholders for Python's
container repr. -/
def pyStr : JValue → String
  | JValue.jnull => "None"
  | JValue.jbool true => "True"
  | JValue.jbool false => "False"
  | JValue.jnum n => toString n
  | JValue.jstr s => s
  | JValue.jarr _ => "<list>"
  | JValue.jobj _ => "<dict>"

/-- Embedding of the `HistoryEntry` dataclass of
`src/src/history_manager.py`.  Python dataclasses do not enforce the
field type annotations, and `from_dict` stores whatever JSON values the
store file held, so every field carries a `JValue`; the three optional
fields default to `None` (`jnull`) exactly as in the dataclass. -/
structure HistoryEntry where
  command : JValue
  timestamp : JValue
  success : JValue
  image_name : JValue
  operation_type : JValue
  user_id : JValue := JValue.jnull
  session_id : JValue := JValue.jnull
  error_message : JValue := JValue.jnull

/-- Embedding of `HistoryEntry.to_dict` (`dataclasses.asdict`): a JSON
object listing all eight fields in declaration order. -/
def HistoryEntry.toDict (e : HistoryEntry) : List (String × JValue) :=
  [ ("command", e.command)
  , ("timestamp", e.timestamp)
  , ("success", e.success)
  , ("image_name", e.image_name)
  , ("operation_type", e.operation_type)
  , ("user_id", e.user_id)
  , ("session_id", e.session_id)
  , ("error_message", e.error_message) ]

/-- The five dataclass fields without defaults: `cls(**data)` raises
`TypeError` when any of them is missing. -/
def requiredKeys : List String :=
  ["command", "timestamp", "success", "image_name", "operation_type"]

/-- All eight dataclass field names: `cls(**data)` raises `TypeError`
on any unexpected keyword. -/
def allowedKeys : List String :=
  requiredKeys ++ ["user_id", "session_id", "error_message"]

/-- Embedding of `HistoryEntry.from_dict` applied to a parsed JSON
object: `cls(**data)` succeeds precisely when every key of `data` is a
dataclass field name and every field without a default is present; the
values themselves are not type-checked (dataclasses do not validate
annotations).  `none` stands for the `TypeError`/`KeyError` that
`_load_history` catches. -/
def fromDict (kvs : List (String × JValue)) : Option HistoryEntry :=
  if requiredKeys.all (fun k => (kvs.lookup k).isSome)
      && kvs.all (fun kv => allowedKeys.contains kv.1) then
    some
      { command := (kvs.lookup "command").getD JValue.jnull
      , timestamp := (kvs.lookup "timestamp").getD JValue.jnull
      , success := (kvs.lookup "success").getD JValue.jnull
      , image_name := (kvs.lookup "image_name").getD JValue.jnull
      , operation_type := (kvs.lookup "operation_type").getD JValue.jnull
      , user_id := (kvs.lookup "user_id").getD JValue.jnull
      , session_id := (kvs.lookup "session_id").getD JValue.jnull
      , error_message := (kvs.lookup "error_message").getD JValue.jnull }
  else
    none

/-- One element of the loaded JSON array, as `_load_history` treats it:
`HistoryEntry.from_dict` raises `TypeError` on every non-object element
(`cls(**x)` needs a mapping), which the `except (TypeError, KeyError)`
clause turns into a skip. -/
def entryOfJValue : JValue → Option HistoryEntry
  | JValue.jobj kvs => fromDict kvs
  | _ => none

/-- The possible states of the history store file as seen by
`_load_history`: absent, unreadable (`IOError`), not valid JSON
(`json.JSONDecodeError`), or a successfully parsed JSON document. -/
inductive StoreContent where
  | missing : StoreContent
  | unreadable : StoreContent
  | badJson : StoreContent
  | parsed (v : JValue) : StoreContent

/-- Embedding of `HistoryManager._load_history`.  A missing, unreadable
or unparseable file yields `[]`.  A parsed JSON array is iterated and
malformed elements are skipped.  A parsed JSON object or string is also
iterable (keys / one-character strings), every element of which fails
`from_dict` with a caught `TypeError`, yielding `[]`.  A parsed JSON
number, boolean or null is not iterable: the `for entry_data in data`
loop raises `TypeError`, which the surrounding
`except (json.JSONDecodeError, IOError)` clause does not catch, so the
exception escapes `_load_history`. -/
def loadHistory : StoreContent → Except String (List HistoryEntry)
  | StoreContent.missing => Except.ok []
  | StoreContent.unreadable => Except.ok []
  | StoreContent.badJson => Except.ok []
  | StoreContent.parsed (JValue.jarr elems) =>
      Except.ok (elems.filterMap entryOfJValue)
  | StoreContent.parsed (JValue.jobj kvs) =>
      Except.ok ((kvs.map (fun kv => JValue.jstr kv.1)).filterMap entryOfJValue)
  | StoreContent.parsed (JValue.jstr s) =>
      Except.ok ((s.data.map (fun c => JValue.jstr (String.mk [c]))).filterMap
        entryOfJValue)
  | StoreContent.parsed (JValue.jnum _) => Except.error "TypeError"
  | StoreContent.parsed (JValue.jbool _) => Except.error "TypeError"
  | StoreContent.parsed JValue.jnull => Except.error "TypeError"

/-- The cap `HistoryManager.MAX_ENTRIES`. -/
def MAX_ENTRIES : Nat := 50

/-- The pure store transformation performed by
`HistoryManager.add_entry` (lines 215-226): load, insert the new entry
at the front, truncate to `MAX_ENTRIES` when the count exceeds the cap,
save. -/
def addEntryStore (entries : List HistoryEntry) (e : HistoryEntry) :
    List HistoryEntry :=
  let l := e :: entries
  if l.length > MAX_ENTRIES then l.take MAX_ENTRIES else l

/-- Embedding of `HistoryManager.prune_old_entries`: returns the store
left behind and the removed count.  When the count is within the cap
nothing is rewritten and `0` is returned. -/
def pruneOldEntries (entries : List HistoryEntry) :
    List HistoryEntry × Nat :=
  if entries.length > MAX_ENTRIES then
    (entries.take MAX_ENTRIES, entries.length - MAX_ENTRIES)
  else
    (entries, 0)

/-- A concrete well-typed history entry, used to instantiate universally
quantified statements. -/
def sampleEntry : HistoryEntry :=
  { command := JValue.jstr "rpm-ostree status"
  , timestamp := JValue.jnum 1700000000
  , success := JValue.jbool true
  , image_name := JValue.jstr ""
  , operation_type := JValue.jstr "other" }

/-- Outcome of one `import`-and-send attempt inside
`_log_to_journal`: the attempt succeeds, the module import fails
(`ImportError`), or the send call itself raises some other exception. -/
inductive LogAttempt where
  | ok : LogAttempt
  | importFail : LogAttempt
  | raises : LogAttempt
  deriving DecidableEq

/-- Behaviour of the ambient system-log sinks during one
`_log_to_journal` call. -/
structure JournalEnv where
  journal : LogAttempt
  syslog : LogAttempt

/-- Embedding of `HistoryManager._log_to_journal`.  Only `ImportError`
is caught (for the `systemd.journal` import, falling back to `syslog`,
whose own `ImportError` is silently swallowed); an exception raised by
the send call itself is not caught and propagates. -/
def logToJournal : JournalEnv → Except String Unit
  | ⟨LogAttempt.ok, _⟩ => Except.ok ()
  | ⟨LogAttempt.raises, _⟩ => Except.error "journal send raised"
  | ⟨LogAttempt.importFail, LogAttempt.ok⟩ => Except.ok ()
  | ⟨LogAttempt.importFail, LogAttempt.importFail⟩ => Except.ok ()
  | ⟨LogAttempt.importFail, LogAttempt.raises⟩ => Except.error "syslog raised"

/-- Embedding of `HistoryManager.add_entry` including the system-log
side channel: `_log_to_journal(entry)` runs before the history load and
save, with no surrounding `try`, so an exception escaping it aborts the
call before the primary history write. -/
def addEntryFull (env : JournalEnv) (entries : List HistoryEntry)
    (e : HistoryEntry) : Except String (List HistoryEntry) :=
  match logToJournal env with
  | Except.error s => Except.error s
  | Except.ok _ => Except.ok (addEntryStore entries e)

/-- Per-key counters used by the user and operation statistics of
`generate_security_report`. -/
structure GroupStats where
  total : Nat
  successCount : Nat
  failedCount : Nat

/-- Update one grouping dict of `generate_security_report`: create the
key with zeroed counters when absent (insertion order preserved), then
bump `total` and the matching success/failure counter. -/
def bumpStat (m : List (String × GroupStats)) (k : String) (succ : Bool) :
    List (String × GroupStats) :=
  match m with
  | [] =>
      [(k, { total := 1
           , successCount := if succ then 1 else 0
           , failedCount := if succ then 0 else 1 })]
  | (k', st) :: rest =>
      if k = k' then
        (k', { total := st.total + 1
             , successCount := st.successCount + (if succ then 1 else 0)
             , failedCount := st.failedCount + (if succ then 0 else 1) })
          :: rest
      else
        (k', st) :: bumpStat rest k succ

/-- One element of the `recent_failures` list of the security report.
`timestamp` holds `entry.get_formatted_time()`, `command` and `error`
hold the raw entry values (`error_message or "Unknown error"`), `user`
holds `str(user_id)` or `"unknown"`. -/
structure FailureRow where
  timestamp : String
  command : JValue
  error : JValue
  user : String

/-- Build one `recent_failures` row from an entry.  `fmt` abstracts
`datetime.fromtimestamp(...).strftime(...)`, which depends on the local
timezone of the host. -/
def mkFailureRow (fmt : JValue → String) (e : HistoryEntry) : FailureRow :=
  { timestamp := fmt e.timestamp
  , command := e.command
  , error := if jtruthy e.error_message then e.error_message
             else JValue.jstr "Unknown error"
  , user := if jtruthy e.user_id then pyStr e.user_id else "unknown" }

/-- The dictionary returned by
`HistoryManager.generate_security_report`. -/
structure SecurityReport where
  reportGenerated : String
  totalCommands : Nat
  successfulCommands : Nat
  failedCommands : Nat
  successRate : String
  userStatistics : List (String × GroupStats)
  operationStatistics : List (String × GroupStats)
  recentFailures : List FailureRow
  historyFile : String

/-- Embedding of `HistoryManager.generate_security_report`.  `fmt`
abstracts the timezone-dependent `get_formatted_time`; `pct` abstracts
the float formatting `f"{successful/total*100:.1f}%"` (applied only
when `total_commands > 0`, else `"N/A"`); `nowIso` abstracts
`datetime.now().isoformat()`.  Operation-statistics keys are
`entry.operation_type` coerced through `pyStr` (Python uses the raw
value as dict key; every key reaching a JSON dict is rendered here to
keep one grouping helper — no claim depends on non-string operation
types). -/
def generateSecurityReport (fmt : JValue → String)
    (pct : Nat → Nat → String) (nowIso : String) (historyFile : String)
    (entries : List HistoryEntry) : SecurityReport :=
  let totalCommands := entries.length
  let successfulCommands :=
    (entries.filter (fun e => jtruthy e.success)).length
  let failedCommands := totalCommands - successfulCommands
  let userStatistics := entries.foldl
    (fun m e =>
      bumpStat m (if jtruthy e.user_id then pyStr e.user_id else "unknown")
        (jtruthy e.success))
    []
  let operationStatistics := entries.foldl
    (fun m e => bumpStat m (pyStr e.operation_type) (jtruthy e.success)) []
  let recentFailures := (entries.take 10).filterMap
    (fun e => if jtruthy e.success then none else some (mkFailureRow fmt e))
  { reportGenerated := nowIso
  , totalCommands := totalCommands
  , successfulCommands := successfulCommands
  , failedCommands := failedCommands
  , successRate :=
      if totalCommands > 0 then pct successfulCommands totalCommands
      else "N/A"
  , userStatistics := userStatistics
  , operationStatistics := operationStatistics
  , recentFailures := recentFailures
  , historyFile := historyFile }

/-- Embedding of the `RegistryImage` dataclass of
`src/src/registry_manager.py`.  `datetime` values are embedded as `Int`
points on an abstract day-resolution timeline; `date` is `none` when
`_parse_date_from_tag` found no date in the tag. -/
structure RegistryImage where
  name : String
  tag : String
  registry : String
  date : Option Int := none

/-- Ordering on the sort key `x.date or datetime.min` of
`list_image_tags`: a missing date acts as `datetime.min`, strictly below
every real date. -/
def dateKeyLE : Option Int → Option Int → Bool
  | none, _ => true
  | some _, none => false
  | some a, some b => a ≤ b

/-- Stable insertion of one image into a list already in
newest-date-first order: the new element goes after every element whose
key is at least its own, preserving encounter order on ties. -/
def insertByDateDesc (x : RegistryImage) :
    List RegistryImage → List RegistryImage
  | [] => [x]
  | y :: ys =>
      if dateKeyLE x.date y.date then y :: insertByDateDesc x ys
      else x :: y :: ys

/-- Embedding of `images.sort(key=lambda x: x.date or datetime.min,
reverse=True)`: the unique stable descending sort by date, realised as
a stable insertion sort (Python's stable sort produces the same list). -/
def sortByDateDesc (l : List RegistryImage) : List RegistryImage :=
  l.foldl (fun acc x => insertByDateDesc x acc) []

/-- Embedding of the tail of `RegistryManager.list_image_tags` (lines
93-113): build one `RegistryImage` per tag, attach the best-effort
parsed date, and sort newest-first.  `parseDate` abstracts
`_parse_date_from_tag`; the subprocess tag listing, branch filtering
and 5-minute cache that precede these lines are outside the claim. -/
def listImageTagsSorted (parseDate : String → Option Int)
    (registry image : String) (tags : List String) : List RegistryImage :=
  sortByDateDesc (tags.map (fun tag =>
    { name := image, tag := tag, registry := registry
    , date := parseDate tag }))

/-- The filtering loop of `get_recent_images`: dated images are kept
when their date reaches the cutoff; undated images are kept while the
accumulated result still has fewer than 20 elements. -/
def recentFilterLoop (cutoff : Int) (acc : List RegistryImage) :
    List RegistryImage → List RegistryImage
  | [] => acc
  | img :: rest =>
      match img.date with
      | some d =>
          if cutoff ≤ d then recentFilterLoop cutoff (acc ++ [img]) rest
          else recentFilterLoop cutoff acc rest
      | none =>
          if acc.length < 20 then recentFilterLoop cutoff (acc ++ [img]) rest
          else recentFilterLoop cutoff acc rest

/-- Embedding of `RegistryManager.get_recent_images`: list the sorted
tags, compute `cutoff = now - timedelta(days=days)` on the abstract
timeline, and run the filtering loop. -/
def getRecentImages (parseDate : String → Option Int)
    (registry image : String) (days : Int) (tags : List String)
    (now : Int) : List RegistryImage :=
  let allImages := listImageTagsSorted parseDate registry image tags
  recentFilterLoop (now - days) [] allImages

/-- Result triple of `execute_with_progress`:
`(success, combined_output, error_type)`. -/
structure ExecResult where
  success : Bool
  output : String
  errorType : String

/-- Executor session state (`CommandExecutor`): the `is_executing`
boolean guard. -/
structure CommandExecutor where
  is_executing : Bool

/-- Prefix test on character lists. -/
def hasPrefixCL : List Char → List Char → Bool
  | [], _ => true
  | _ :: _, [] => false
  | n :: ns, h :: hs => n == h && hasPrefixCL ns hs

/-- Infix test on character lists: the needle starts at some suffix of
the haystack. -/
def hasInfixCL (needle : List Char) : List Char → Bool
  | [] => hasPrefixCL needle []
  | h :: hs => hasPrefixCL needle (h :: hs) || hasInfixCL needle hs

/-- Substring test used to state "output contains ...": Python's
`needle in haystack`, as a contiguous-subsequence check on the
character lists. -/
def strContains (haystack needle : String) : Bool :=
  hasInfixCL needle.data haystack.data

/-- Modelled from the spec: `CommandExecutor.execute_with_progress` —
the file `src/command_executor.py` is absent from the repository (only
its unit tests survive under `src/tests/`), so this embeds the spec's
entry guard ("if a command is already `Running`, return immediately
with `success=false`, message 'already executing' — no queueing, no
blocking wait"), with the returned error kind and message pinned by the
repository's own tests
(`test_error_handling.py::test_concurrent_execution_prevention` asserts
`error_type == 'general'` and `'already executing' in output`;
`test_command_executor.py::test_execute_concurrent_prevention` asserts
the same message): the guard reports the catch-all kind `"general"`,
not `"busy"`.  `run` abstracts the whole accepted-path behaviour
(validation, spawn, streaming, classification); the second component
counts subprocesses spawned by the call. -/
def execute_with_progress (run : List String → ExecResult)
    (st : CommandExecutor) (argv : List String) : ExecResult × Nat :=
  if st.is_executing then
    ({ success := false
     , output := "Error: A command is already executing"
     , errorType := "general" }, 0)
  else
    (run argv, 1)

/-- Python `str.split('\n')` on a character list: always returns at
least one (possibly empty) segment, one extra segment per newline. -/
def splitNl : List Char → List (List Char)
  | [] => [[]]
  | c :: rest =>
      match splitNl rest with
      | [] => [[c]]
      | seg :: segs =>
          if c = '\n' then [] :: seg :: segs
          else (c :: seg) :: segs

/-- Python `data.endswith('\n')` on a character list (false on the
empty string). -/
def endsWithNl (cs : List Char) : Bool :=
  match cs.getLast? with
  | some c => c = '\n'
  | none => false

/-- Python `not line.strip()`: true when the line is empty or holds
only whitespace.  `Char.isWhitespace` covers the space, tab, newline
and carriage-return characters stripped by Python (the rare `\x0b` /
`\x0c` forms do not occur in the streamed tool output). -/
def isBlankLine (cs : List Char) : Bool :=
  cs.all Char.isWhitespace

/-- Single-character escape finals of the ANSI regex used by
`_clean_ansi_codes` (first alternative of the pattern): the character
class covering code points 64-90 and 92-95. -/
def isEscSingleFinal (c : Char) : Bool :=
  ('@' ≤ c && c ≤ 'Z') || ('\\' ≤ c && c ≤ '_')

/-- CSI parameter bytes `[0-?]` (code points 48-63). -/
def isCsiParam (c : Char) : Bool := '0' ≤ c && c ≤ '?'

/-- CSI intermediate bytes (code points 32-47). -/
def isCsiInter (c : Char) : Bool := ' ' ≤ c && c ≤ '/'

/-- CSI final bytes `[@-~]` (code points 64-126). -/
def isCsiFinal (c : Char) : Bool := '@' ≤ c && c ≤ '~'

/-- Match the CSI body of the ANSI regex (parameter bytes, then
intermediate bytes, then one final byte) at the front of the list,
returning the remainder after the final byte, or `none` when no final
byte follows (the three character classes are disjoint, so the greedy
match of the regex is this deterministic scan). -/
def dropCsiBody (cs : List Char) : Option (List Char) :=
  match (cs.dropWhile isCsiParam).dropWhile isCsiInter with
  | [] => none
  | f :: rest => if isCsiFinal f then some rest else none

/-- Embedding of `ProgressTracker._clean_ansi_codes`, the
`re.sub` of the ANSI escape pattern with the empty string.  An ESC
byte followed by a single final byte, or by an opening bracket and a
complete CSI body, is removed together with that sequence; an ESC byte
starting no complete match is kept (the regex match fails there and
scanning resumes at the next position).  The `fuel` argument makes
the recursion structural so that the scan computes by kernel
reduction; every recursive call consumes at least one character, so
any fuel of at least `cs.length` yields the scrub of `cs` (the
zero-fuel non-empty case is unreachable from `ansiScrub`). -/
def ansiScrubGo : Nat → List Char → List Char
  | _, [] => []
  | 0, cs => cs
  | fuel + 1, c :: rest =>
      if c = '\x1b' then
        match rest with
        | [] => [c]
        | d :: rest2 =>
            if isEscSingleFinal d then ansiScrubGo fuel rest2
            else if d = '[' then
              match dropCsiBody rest2 with
              | some r => ansiScrubGo fuel r
              | none => c :: ansiScrubGo fuel (d :: rest2)
            else c :: ansiScrubGo fuel (d :: rest2)
      else c :: ansiScrubGo fuel rest

def ansiScrub (cs : List Char) : List Char :=
  ansiScrubGo cs.length cs

/-- String-level wrapper for `_clean_ansi_codes`. -/
def cleanAnsiCodes (s : String) : String :=
  String.mk (ansiScrub s.data)

/-- One record of the tracker's `output_buffer`
(`deque(maxlen=1000)` entries `{'text': ..., 'timestamp': ...}`). -/
structure OutputEntry where
  text : String
  timestamp : Int

/-- The `output_buffer` capacity (`deque(maxlen=1000)`). -/
def BUFFER_MAXLEN : Nat := 1000

/-- Append one record to the bounded deque, dropping the oldest record
when the capacity is reached. -/
def pushCapped (buf : List OutputEntry) (e : OutputEntry) :
    List OutputEntry :=
  let b := buf ++ [e]
  if b.length > BUFFER_MAXLEN then b.drop (b.length - BUFFER_MAXLEN) else b

/-- Embedding of the `ProgressTracker` state
(`progress_tracker.py`).  The `api` reference is UI plumbing and not
modelled; the JavaScript dispatches become explicit events. -/
structure ProgressTracker where
  operationName : Option String
  startTime : Option Int
  outputBuffer : List OutputEntry
  isTracking : Bool
  lineBuffer : String

/-- The tracker state produced by `ProgressTracker.__init__`. -/
def initialTracker : ProgressTracker :=
  { operationName := none, startTime := none, outputBuffer := []
  , isTracking := false, lineBuffer := "" }

/-- Events the tracker publishes to the rendering surface: the
`initializeProgress`, `updateProgress` and `completeProgress`
JavaScript dispatches. -/
inductive ProgressEvent where
  | started (operation : String) (startTime : Int) : ProgressEvent
  | progress (line : String) (timestamp : Int) : ProgressEvent
  | completed (operation : Option String) (success : Bool)
      (message : String) (elapsedTime : Int) (lineCount : Nat) :
      ProgressEvent

/-- Embedding of `ProgressTracker._add_output_line`: clean the ANSI
codes, append the cleaned line with a timestamp to the bounded buffer,
and emit one `updateProgress` event. -/
def addOutputLine (t : ProgressTracker) (now : Int) (line : String) :
    ProgressTracker × ProgressEvent :=
  let clean := cleanAnsiCodes line
  ({ t with outputBuffer := pushCapped t.outputBuffer ⟨clean, now⟩ }
  , ProgressEvent.progress clean now)

/-- Embedding of `ProgressTracker.start_tracking`. -/
def startTracking (t : ProgressTracker) (now : Int) (operation : String) :
    ProgressTracker × List ProgressEvent :=
  ({ operationName := some operation, startTime := some now,
     outputBuffer := [], lineBuffer := "", isTracking := true }
  , [ProgressEvent.started operation now])

/-- The completed-segment computation of `ProgressTracker.update_output`
on character lists: split the pending buffer plus the new chunk on
newlines; when the chunk does not end in a newline the last segment is
withheld as the new pending buffer, otherwise every segment is
processed and the pending buffer is cleared. -/
def splitChunk (pending data : List Char) :
    List (List Char) × List Char :=
  let lines := splitNl (pending ++ data)
  if endsWithNl data then (lines, [])
  else (lines.dropLast, lines.getLastD [])

/-- Embedding of `ProgressTracker.update_output`: a no-op unless
tracking is active; otherwise buffer-split the chunk and emit one event
per completed line that survives the `line.strip()` test (empty and
whitespace-only lines are skipped). -/
def updateOutput (t : ProgressTracker) (now : Int) (data : String) :
    ProgressTracker × List ProgressEvent :=
  if t.isTracking then
    let sc := splitChunk t.lineBuffer.data data.data
    sc.1.foldl
      (fun acc line =>
        if isBlankLine line then acc
        else
          let r := addOutputLine acc.1 now (String.mk line)
          (r.1, acc.2 ++ [r.2]))
      ({ t with lineBuffer := String.mk sc.2 }, [])
  else
    (t, [])

/-- Embedding of `ProgressTracker.complete`: a no-op unless tracking is
active; otherwise flush a non-empty pending buffer as a final output
line (the flush bypasses the blank-line test of `update_output`), mark
tracking inactive, and emit the completion event carrying the elapsed
time since `start_tracking` and `len(self.output_buffer)`. -/
def trackerComplete (t : ProgressTracker) (now : Int) (success : Bool)
    (message : String) : ProgressTracker × List ProgressEvent :=
  if t.isTracking then
    let fr :=
      if t.lineBuffer ≠ "" then
        let r := addOutputLine t now t.lineBuffer
        ({ r.1 with lineBuffer := "" }, [r.2])
      else (t, [])
    let t2 := { fr.1 with isTracking := false }
    let elapsed :=
      match t2.startTime with
      | some s => now - s
      | none => 0
    let msg :=
      if message = "" then
        (if success then "Operation completed successfully"
         else "Operation failed")
      else message
    (t2, fr.2 ++
      [ProgressEvent.completed t2.operationName success msg elapsed
        t2.outputBuffer.length])
  else
    (t, [])

/-- Feed a sequence of chunks through `update_output`, accumulating the
emitted events. -/
def runChunks (t : ProgressTracker) (now : Int) (chunks : List String) :
    ProgressTracker × List ProgressEvent :=
  chunks.foldl
    (fun acc data =>
      let (t', evs) := updateOutput acc.1 now data
      (t', acc.2 ++ evs))
    (t, [])

/-- The dated-and-recent test of the `get_recent_images` loop:
`img.date and img.date >= cutoff` (a `datetime` is always truthy, so
the Python condition is exactly date-present-and-at-least-cutoff). -/
def inWindowB (cutoff : Int) (i : RegistryImage) : Bool :=
  match i.date with
  | some d => cutoff ≤ d
  | none => false

/-- Glue of two newline-splits: the split of a concatenation joins the
last segment of the left split with the first segment of the right
split. -/
def glueSplit (sa sb : List (List Char)) : List (List Char) :=
  sa.dropLast ++ ((sa.getLastD []) ++ sb.headD []) :: sb.tail

/-- A concrete successful history entry. -/
def okEntry : HistoryEntry :=
  { command := JValue.jstr "rpm-ostree status"
  , timestamp := JValue.jnum 1700000100
  , success := JValue.jbool true
  , image_name := JValue.jstr ""
  , operation_type := JValue.jstr "other" }

/-- A concrete failed history entry. -/
def failEntry : HistoryEntry :=
  { command := JValue.jstr "rpm-ostree rebase bad"
  , timestamp := JValue.jnum 1700000000
  , success := JValue.jbool false
  , image_name := JValue.jstr "bad"
  , operation_type := JValue.jstr "rebase"
  , error_message := JValue.jstr "exit code 1" }

/-- A concrete stand-in for the timezone-dependent
`get_formatted_time` formatter. -/
def fmt0 : JValue → String := fun _ => "time"

/-- A concrete stand-in for the float percentage formatter. -/
def pct0 : Nat → Nat → String := fun _ _ => "rate"

/-- A concrete stand-in for the accepted-path behaviour of the
executor. -/
def run0 : List String → ExecResult :=
  fun _ => { success := true, output := "", errorType := "" }

theorem addEntryStore_eq_take (s : List HistoryEntry) (e : HistoryEntry) :
    addEntryStore s e = (e :: s).take MAX_ENTRIES := by
  unfold addEntryStore
  by_cases h : (e :: s).length > MAX_ENTRIES
  · simp [h]
  · have hle : (e :: s).length ≤ MAX_ENTRIES := Nat.le_of_not_lt h
    simp [h, List.take_of_length_le hle]

theorem foldl_addEntryStore (s : List HistoryEntry)
    (hs : s.length ≤ MAX_ENTRIES) (es : List HistoryEntry) :
    es.foldl addEntryStore s = (es.reverse ++ s).take MAX_ENTRIES := by
  induction es generalizing s with
  | nil => simpa using (List.take_of_length_le hs).symm
  | cons e rest ih =>
      have step : addEntryStore s e = (e :: s).take MAX_ENTRIES :=
        addEntryStore_eq_take s e
      have hlen : (addEntryStore s e).length ≤ MAX_ENTRIES := by
        rw [step]
        simpa using Nat.min_le_left MAX_ENTRIES (e :: s).length
      calc (e :: rest).foldl addEntryStore s
          = rest.foldl addEntryStore (addEntryStore s e) := rfl
        _ = (rest.reverse ++ addEntryStore s e).take MAX_ENTRIES :=
            ih _ hlen
        _ = (rest.reverse ++ (e :: s).take MAX_ENTRIES).take MAX_ENTRIES := by
            rw [step]
        _ = (rest.reverse ++ (e :: s)).take MAX_ENTRIES := by
            rw [List.take_append_eq_append_take,
              List.take_append_eq_append_take, List.take_take]
            simp [Nat.min_comm]
        _ = ((e :: rest).reverse ++ s).take MAX_ENTRIES := by
            simp

/-- C2: starting from any store with at most `MAX_ENTRIES` (50)
entries, every sequence of `add_entry` store updates keeps the store at
the most recent 50 entries in newest-first order — after processing the
new entries `es`, the store is exactly the first 50 of
`es.reverse ++ s` (the most recent first); in particular it never holds
more than 50 entries, and inserting 51 entries into an empty store
leaves exactly the most recent 50, the first-inserted entry evicted. -/
theorem add_entry_bounded_newest_first (s : List HistoryEntry)
    (hs : s.length ≤ MAX_ENTRIES) (es : List HistoryEntry) :
    es.foldl addEntryStore s = (es.reverse ++ s).take MAX_ENTRIES ∧
    (es.foldl addEntryStore s).length ≤ MAX_ENTRIES ∧
    (es.length = MAX_ENTRIES + 1 →
      es.foldl addEntryStore ([] : List HistoryEntry) =
        (es.reverse).take MAX_ENTRIES ∧
      (es.foldl addEntryStore ([] : List HistoryEntry)).length =
        MAX_ENTRIES) := by
  refine ⟨foldl_addEntryStore s hs es, ?_, ?_⟩
  · rw [foldl_addEntryStore s hs es]
    simpa using Nat.min_le_left MAX_ENTRIES (es.reverse ++ s).length
  · intro hlen
    have h0 : ([] : List HistoryEntry).length ≤ MAX_ENTRIES := by simp
    have heq := foldl_addEntryStore [] h0 es
    rw [List.append_nil] at heq
    refine ⟨heq, ?_⟩
    rw [heq, List.length_take, List.length_reverse, hlen]
    omega

theorem add_entry_bounded_newest_first_wit :
    ([] : List HistoryEntry).length ≤ MAX_ENTRIES ∧
    [sampleEntry].foldl addEntryStore ([] : List HistoryEntry) =
      ([sampleEntry].reverse ++ []).take MAX_ENTRIES :=
  ⟨by decide, (add_entry_bounded_newest_first [] (by decide) [sampleEntry]).1⟩

theorem pruneOldEntries_snd (s : List HistoryEntry) :
    (pruneOldEntries s).2 = s.length - MAX_ENTRIES := by
  unfold pruneOldEntries
  by_cases h : s.length > MAX_ENTRIES
  · simp [h]
  · simp [h]
    omega

theorem pruneOldEntries_fst_length (s : List HistoryEntry) :
    (pruneOldEntries s).1.length = min s.length MAX_ENTRIES := by
  unfold pruneOldEntries
  by_cases h : s.length > MAX_ENTRIES
  · simp [h]
    omega
  · simp [h]
    omega

theorem pruneOldEntries_noop (s : List HistoryEntry)
    (h : s.length ≤ MAX_ENTRIES) : pruneOldEntries s = (s, 0) := by
  unfold pruneOldEntries
  simp [Nat.not_lt.mpr h]

/-- C8: `prune_old_entries` removes exactly the entries beyond the cap
and reports their count — on a store with `n` entries it returns
`n - 50` (zero when `n ≤ 50`) and leaves the first `min n 50` entries;
it is idempotent (a second call removes zero entries); on a 70-entry
store it returns 20 and leaves exactly 50 entries. -/
theorem prune_old_entries_spec (s : List HistoryEntry) :
    (pruneOldEntries s).2 = s.length - MAX_ENTRIES ∧
    (pruneOldEntries s).1.length = min s.length MAX_ENTRIES ∧
    pruneOldEntries (pruneOldEntries s).1 = ((pruneOldEntries s).1, 0) ∧
    pruneOldEntries (List.replicate 70 sampleEntry) =
      (List.replicate MAX_ENTRIES sampleEntry, 20) := by
  refine ⟨pruneOldEntries_snd s, pruneOldEntries_fst_length s, ?_, ?_⟩
  · refine pruneOldEntries_noop _ ?_
    rw [pruneOldEntries_fst_length s]
    omega
  · have h70 : (List.replicate 70 sampleEntry).length > MAX_ENTRIES := by
      simp [MAX_ENTRIES]
    unfold pruneOldEntries
    rw [if_pos h70, List.take_replicate]
    simp [MAX_ENTRIES]

/-- C9: converting any `HistoryEntry` with `to_dict` and rebuilding it
with `from_dict` yields an entry equal to the original, for every
combination of field values including null optional fields. -/
theorem history_entry_roundtrip (e : HistoryEntry) :
    fromDict e.toDict = some e := by
  cases e
  rfl

theorem loadHistory_array (elems : List JValue) :
    loadHistory (StoreContent.parsed (JValue.jarr elems)) =
      Except.ok (elems.filterMap entryOfJValue) := rfl

/-- C6 counterexample: a store file whose content is the valid JSON
document `5` parses as a JSON number, and `_load_history` then raises
an uncaught `TypeError` while iterating it — the load fails instead of
yielding the empty list, refuting "loading the history never fails for
every store file content". -/
theorem load_history_never_fails_cex :
    loadHistory (StoreContent.parsed (JValue.jnum 5)) =
      Except.error "TypeError" := rfl

/-- C6 (amended): loading never fails when the store file is missing,
unreadable, not valid JSON, or parses as a JSON array (or any other
iterable JSON document): the first three cases yield the empty list,
and in the array case every element that is not a well-formed entry is
skipped while every well-formed entry is returned, in order; but a
store file parsing to a JSON number, boolean or null makes the load
raise an uncaught `TypeError`. -/
theorem load_history_robust :
    loadHistory StoreContent.missing = Except.ok [] ∧
    loadHistory StoreContent.unreadable = Except.ok [] ∧
    loadHistory StoreContent.badJson = Except.ok [] ∧
    (∀ elems : List JValue,
      loadHistory (StoreContent.parsed (JValue.jarr elems)) =
        Except.ok (elems.filterMap entryOfJValue)) ∧
    (∀ (elems : List JValue) (v : JValue) (e : HistoryEntry),
      v ∈ elems → entryOfJValue v = some e →
        e ∈ elems.filterMap entryOfJValue) ∧
    (∀ elems : List JValue,
      (∀ v ∈ elems, entryOfJValue v = none) →
        loadHistory (StoreContent.parsed (JValue.jarr elems)) =
          Except.ok []) := by
  refine ⟨rfl, rfl, rfl, fun _ => rfl, ?_, ?_⟩
  · intro elems v e hv he
    exact List.mem_filterMap.mpr ⟨v, hv, he⟩
  · intro elems hall
    rw [loadHistory_array, List.filterMap_eq_nil_iff.mpr hall]

theorem load_history_robust_wit :
    ((JValue.jobj sampleEntry.toDict) ∈
        [JValue.jobj sampleEntry.toDict, JValue.jnum 3] ∧
      entryOfJValue (JValue.jobj sampleEntry.toDict) = some sampleEntry) ∧
    sampleEntry ∈
      ([JValue.jobj sampleEntry.toDict, JValue.jnum 3].filterMap
        entryOfJValue) :=
  ⟨⟨by simp, by rfl⟩,
    load_history_robust.2.2.2.2.1
      [JValue.jobj sampleEntry.toDict, JValue.jnum 3]
      (JValue.jobj sampleEntry.toDict) sampleEntry (by simp) (by rfl)⟩

/-- C3 counterexample: when the structured-journal send operation
itself raises (any exception other than `ImportError`, for example the
journal socket being unavailable), `add_entry` propagates the exception
before the history load/save runs — the primary history write does not
complete, refuting "a logging failure never blocks or fails the
history write". -/
theorem add_entry_logging_raise_cex :
    addEntryFull ⟨LogAttempt.raises, LogAttempt.ok⟩ [] sampleEntry =
      Except.error "journal send raised" := rfl

/-- C3 (amended): `add_entry` completes the primary history write when
the system-log sinks are merely unavailable — `_log_to_journal` catches
the `ImportError` of a missing `systemd.journal` (falling back to
syslog) and of a missing `syslog` module (silently continuing) — but an
exception raised by the send operation itself is not caught and aborts
the call before the history write. -/
theorem add_entry_logging_best_effort (env : JournalEnv)
    (s : List HistoryEntry) (e : HistoryEntry)
    (hj : env.journal ≠ LogAttempt.raises)
    (hs : env.syslog ≠ LogAttempt.raises) :
    addEntryFull env s e = Except.ok (addEntryStore s e) := by
  obtain ⟨j, sl⟩ := env
  cases j with
  | ok => rfl
  | raises => exact absurd rfl hj
  | importFail =>
      cases sl with
      | ok => rfl
      | importFail => rfl
      | raises => exact absurd rfl hs

theorem add_entry_logging_best_effort_wit :
    (JournalEnv.mk LogAttempt.importFail LogAttempt.importFail).journal ≠
        LogAttempt.raises ∧
    addEntryFull ⟨LogAttempt.importFail, LogAttempt.importFail⟩ []
        sampleEntry =
      Except.ok (addEntryStore [] sampleEntry) :=
  ⟨by decide,
    add_entry_logging_best_effort ⟨LogAttempt.importFail,
      LogAttempt.importFail⟩ [] sampleEntry (by decide) (by decide)⟩

/-- C1 counterexample: with a command already running
(`is_executing = true`), `execute_with_progress` rejects the call with
the catch-all error kind `"general"` — not `"busy"` as the claim
states; the repository's tests
(`test_error_handling.py::test_concurrent_execution_prevention`) pin
exactly this behaviour. -/
theorem execute_busy_guard_kind_cex :
    (execute_with_progress run0 ⟨true⟩ ["rpm-ostree", "status"]).1.errorType
        = "general" ∧
    ¬ (execute_with_progress run0 ⟨true⟩
        ["rpm-ostree", "status"]).1.errorType = "busy" := by
  constructor
  · rfl
  · decide

/-- C1 (amended): whenever a command is already running
(`is_executing = true`), `execute_with_progress` returns at once with
`success = false`, error kind `"general"`, an output message containing
"already executing", and without spawning any subprocess — no queueing
(the rejected call never reaches the accepted path `run`). -/
theorem execute_busy_guard (run : List String → ExecResult)
    (st : CommandExecutor) (argv : List String)
    (h : st.is_executing = true) :
    (execute_with_progress run st argv).1.success = false ∧
    (execute_with_progress run st argv).1.errorType = "general" ∧
    strContains (execute_with_progress run st argv).1.output
      "already executing" = true ∧
    (execute_with_progress run st argv).2 = 0 := by
  have hres : execute_with_progress run st argv =
      ({ success := false
       , output := "Error: A command is already executing"
       , errorType := "general" }, 0) := by
    unfold execute_with_progress
    rw [h]
    rfl
  rw [hres]
  exact ⟨rfl, rfl, by decide, rfl⟩

theorem execute_busy_guard_wit :
    (CommandExecutor.mk true).is_executing = true ∧
    (execute_with_progress run0 ⟨true⟩ ["rpm-ostree", "status"]).2 = 0 :=
  ⟨rfl, (execute_busy_guard run0 ⟨true⟩ ["rpm-ostree", "status"] rfl).2.2.2⟩

theorem filterMap_failures_eq (fmt : JValue → String)
    (l : List HistoryEntry) :
    (l.filterMap (fun e =>
        if jtruthy e.success then none else some (mkFailureRow fmt e))) =
      (l.filter (fun e => ! jtruthy e.success)).map (mkFailureRow fmt) := by
  induction l with
  | nil => rfl
  | cons e rest ih =>
      by_cases h : jtruthy e.success
      · simp [List.filterMap_cons, List.filter_cons, h, ih]
      · simp [List.filterMap_cons, List.filter_cons, h, ih]

/-- C10: the `recent_failures` list of `generate_security_report`
contains exactly the failing entries among the 10 newest history
entries, in newest-first order — and not the newest failures overall:
on a concrete store of 11 entries whose only failure is the 11th
(oldest) entry, the report counts 1 failed command overall yet lists no
recent failure, because the failure lies beyond the 10 most recent
entries. -/
theorem security_report_recent_failures (fmt : JValue → String)
    (pct : Nat → Nat → String) (nowIso historyFile : String)
    (entries : List HistoryEntry) :
    (generateSecurityReport fmt pct nowIso historyFile
        entries).recentFailures =
      ((entries.take 10).filter (fun e => ! jtruthy e.success)).map
        (mkFailureRow fmt) ∧
    (generateSecurityReport fmt0 pct0 "now" "file"
        (List.replicate 10 okEntry ++ [failEntry])).recentFailures = [] ∧
    (generateSecurityReport fmt0 pct0 "now" "file"
        (List.replicate 10 okEntry ++ [failEntry])).failedCommands = 1 := by
  refine ⟨?_, by rfl, by rfl⟩
  show (entries.take 10).filterMap (fun e =>
      if jtruthy e.success then none else some (mkFailureRow fmt e)) = _
  exact filterMap_failures_eq fmt (entries.take 10)

theorem dateKeyLE_total (a b : Option Int) :
    dateKeyLE a b = true ∨ dateKeyLE b a = true := by
  cases a with
  | none => left; rfl
  | some x =>
      cases b with
      | none => right; rfl
      | some y =>
          simp only [dateKeyLE, decide_eq_true_eq]
          omega

theorem dateKeyLE_trans (a b c : Option Int) (h₁ : dateKeyLE a b = true)
    (h₂ : dateKeyLE b c = true) : dateKeyLE a c = true := by
  cases a with
  | none => rfl
  | some x =>
      cases b with
      | none => exact absurd h₁ (by simp [dateKeyLE])
      | some y =>
          cases c with
          | none => exact absurd h₂ (by simp [dateKeyLE])
          | some z =>
              simp only [dateKeyLE, decide_eq_true_eq] at h₁ h₂ ⊢
              omega

theorem mem_insertByDateDesc (x z : RegistryImage)
    (l : List RegistryImage) :
    z ∈ insertByDateDesc x l ↔ z = x ∨ z ∈ l := by
  induction l with
  | nil => simp [insertByDateDesc]
  | cons y ys ih =>
      by_cases h : dateKeyLE x.date y.date
      · simp [insertByDateDesc, h, ih]
        tauto
      · simp [insertByDateDesc, h]

theorem pairwise_insertByDateDesc (x : RegistryImage)
    (l : List RegistryImage)
    (hl : l.Pairwise (fun a b => dateKeyLE b.date a.date = true)) :
    (insertByDateDesc x l).Pairwise
      (fun a b => dateKeyLE b.date a.date = true) := by
  induction l with
  | nil => simp [insertByDateDesc]
  | cons y ys ih =>
      rcases List.pairwise_cons.mp hl with ⟨hy, hys⟩
      by_cases h : dateKeyLE x.date y.date
      · rw [insertByDateDesc, if_pos h]
        refine List.pairwise_cons.mpr ⟨?_, ih hys⟩
        intro z hz
        rcases (mem_insertByDateDesc x z ys).mp hz with hz | hz
        · rw [hz]; exact h
        · exact hy z hz
      · rw [insertByDateDesc, if_neg h]
        refine List.pairwise_cons.mpr ⟨?_, hl⟩
        intro z hz
        rcases List.mem_cons.mp hz with hz | hz
        · rw [hz]
          rcases dateKeyLE_total x.date y.date with ht | ht
          · exact absurd ht h
          · exact ht
        · rcases dateKeyLE_total x.date y.date with ht | ht
          · exact absurd ht h
          · exact dateKeyLE_trans _ _ _ (hy z hz) ht

theorem pairwise_sortByDateDesc (l : List RegistryImage) :
    (sortByDateDesc l).Pairwise
      (fun a b => dateKeyLE b.date a.date = true) := by
  have hgen : ∀ (acc : List RegistryImage),
      acc.Pairwise (fun a b => dateKeyLE b.date a.date = true) →
      (l.foldl (fun acc x => insertByDateDesc x acc) acc).Pairwise
        (fun a b => dateKeyLE b.date a.date = true) := by
    induction l with
    | nil => intro acc hacc; exact hacc
    | cons x xs ih =>
        intro acc hacc
        exact ih _ (pairwise_insertByDateDesc x acc hacc)
  exact hgen [] List.Pairwise.nil

theorem pairwise_dated_decomposition (l : List RegistryImage)
    (hl : l.Pairwise (fun a b => dateKeyLE b.date a.date = true)) :
    l = l.filter (fun i => i.date.isSome) ++
        l.filter (fun i => i.date.isNone) := by
  induction l with
  | nil => rfl
  | cons a rest ih =>
      rcases List.pairwise_cons.mp hl with ⟨ha, hrest⟩
      cases hdate : a.date with
      | some d =>
          have h1 : List.filter (fun i => i.date.isSome) (a :: rest) =
              a :: List.filter (fun i => i.date.isSome) rest := by
            simp [List.filter_cons, hdate]
          have h2 : List.filter (fun i => i.date.isNone) (a :: rest) =
              List.filter (fun i => i.date.isNone) rest := by
            simp [List.filter_cons, hdate]
          rw [h1, h2, List.cons_append]
          exact congrArg (List.cons a) (ih hrest)
      | none =>
          have hall : ∀ b ∈ rest, b.date = none := by
            intro b hb
            have hba := ha b hb
            rw [hdate] at hba
            cases hbd : b.date with
            | none => rfl
            | some bd =>
                rw [hbd] at hba
                exact absurd hba (by simp [dateKeyLE])
          have h1 : List.filter (fun i => i.date.isSome) (a :: rest) =
              List.filter (fun i => i.date.isSome) rest := by
            simp [List.filter_cons, hdate]
          have h2 : List.filter (fun i => i.date.isNone) (a :: rest) =
              a :: List.filter (fun i => i.date.isNone) rest := by
            simp [List.filter_cons, hdate]
          have hnil : List.filter (fun i => i.date.isSome) rest = [] := by
            rw [List.filter_eq_nil_iff]
            intro b hb
            simp [hall b hb]
          have hself : List.filter (fun i => i.date.isNone) rest = rest := by
            rw [List.filter_eq_self]
            intro b hb
            simp [hall b hb]
          rw [h1, h2, hnil, hself, List.nil_append]

theorem recentFilterLoop_append (cutoff : Int)
    (A B : List RegistryImage) (acc : List RegistryImage) :
    recentFilterLoop cutoff acc (A ++ B) =
      recentFilterLoop cutoff (recentFilterLoop cutoff acc A) B := by
  induction A generalizing acc with
  | nil => rfl
  | cons a A' ih =>
      rw [List.cons_append]
      cases hdate : a.date with
      | some d =>
          simp only [recentFilterLoop, hdate]
          by_cases h : cutoff ≤ d
          · simp only [if_pos h]
            exact ih _
          · simp only [if_neg h]
            exact ih _
      | none =>
          simp only [recentFilterLoop, hdate]
          by_cases h : acc.length < 20
          · simp only [if_pos h]
            exact ih _
          · simp only [if_neg h]
            exact ih _

theorem recentFilterLoop_dated (cutoff : Int) (A : List RegistryImage) :
    (∀ a ∈ A, a.date.isSome = true) → ∀ acc : List RegistryImage,
      recentFilterLoop cutoff acc A =
        acc ++ A.filter (inWindowB cutoff) := by
  induction A with
  | nil =>
      intro _ acc
      simp [recentFilterLoop]
  | cons a A' ih =>
      intro hA acc
      have hhead : a.date.isSome = true := hA a (List.mem_cons_self a A')
      have htail : ∀ b ∈ A', b.date.isSome = true :=
        fun b hb => hA b (List.mem_cons_of_mem a hb)
      cases hdate : a.date with
      | none => rw [hdate] at hhead; cases hhead
      | some d =>
          simp only [recentFilterLoop, hdate]
          by_cases h : cutoff ≤ d
          · have hwin : inWindowB cutoff a = true := by
              simp [inWindowB, hdate, h]
            simp only [if_pos h]
            rw [ih htail, List.filter_cons_of_pos hwin, List.append_assoc]
            rfl
          · have hwin : ¬ inWindowB cutoff a = true := by
              simp [inWindowB, hdate, h]
            simp only [if_neg h]
            rw [ih htail, List.filter_cons_of_neg hwin]

theorem recentFilterLoop_undated (cutoff : Int) (B : List RegistryImage) :
    (∀ b ∈ B, b.date = none) → ∀ acc : List RegistryImage,
      recentFilterLoop cutoff acc B = acc ++ B.take (20 - acc.length) := by
  induction B with
  | nil =>
      intro _ acc
      simp [recentFilterLoop]
  | cons b B' ih =>
      intro hB acc
      have hhead : b.date = none := hB b (List.mem_cons_self b B')
      have htail : ∀ x ∈ B', x.date = none :=
        fun x hx => hB x (List.mem_cons_of_mem b hx)
      simp only [recentFilterLoop, hhead]
      by_cases h : acc.length < 20
      · simp only [if_pos h]
        rw [ih htail]
        simp only [List.length_append, List.length_singleton]
        have harith : 20 - acc.length = (20 - (acc.length + 1)) + 1 := by
          omega
        rw [harith, List.take_succ_cons, List.append_assoc]
        rfl
      · simp only [if_neg h]
        rw [ih htail]
        have harith : 20 - acc.length = 0 := by omega
        rw [harith]
        simp

/-- C7: for every tag list handed to the listing layer,
`get_recent_images` returns exactly the dated entries of the
newest-first sorted listing whose parsed date lies within the last
`days` days, in that order, backfilled with at most `20 - k` undated
entries (where `k` counts the qualifying dated entries — so never more
than 20, and none at all once 20 dated entries qualify); the returned
list is itself in newest-first key order. -/
theorem get_recent_images_spec (parseDate : String → Option Int)
    (registry image : String) (days now : Int) (tags : List String) :
    getRecentImages parseDate registry image days tags now =
      (listImageTagsSorted parseDate registry image tags).filter
          (inWindowB (now - days)) ++
        ((listImageTagsSorted parseDate registry image tags).filter
            (fun i => i.date.isNone)).take
          (20 -
            ((listImageTagsSorted parseDate registry image tags).filter
              (inWindowB (now - days))).length) ∧
    (getRecentImages parseDate registry image days tags now).Pairwise
      (fun a b => dateKeyLE b.date a.date = true) := by
  have hpair : (listImageTagsSorted parseDate registry image
      tags).Pairwise (fun a b => dateKeyLE b.date a.date = true) :=
    pairwise_sortByDateDesc _
  have hdecomp := pairwise_dated_decomposition _ hpair
  have hD : ∀ a ∈ (listImageTagsSorted parseDate registry image
      tags).filter (fun i => i.date.isSome), a.date.isSome = true :=
    fun a ha => (List.mem_filter.mp ha).2
  have hU : ∀ b ∈ (listImageTagsSorted parseDate registry image
      tags).filter (fun i => i.date.isNone), b.date = none := by
    intro b hb
    have hprop := (List.mem_filter.mp hb).2
    simpa [Option.isNone_iff_eq_none] using hprop
  have hDW : ((listImageTagsSorted parseDate registry image tags).filter
        (fun i => i.date.isSome)).filter (inWindowB (now - days)) =
      (listImageTagsSorted parseDate registry image tags).filter
        (inWindowB (now - days)) := by
    rw [List.filter_filter]
    apply List.filter_congr
    intro a _
    cases hdate : a.date <;> simp [inWindowB, hdate]
  have hmain : getRecentImages parseDate registry image days tags now =
      ((listImageTagsSorted parseDate registry image tags).filter
          (fun i => i.date.isSome)).filter (inWindowB (now - days)) ++
        ((listImageTagsSorted parseDate registry image tags).filter
            (fun i => i.date.isNone)).take
          (20 -
            (((listImageTagsSorted parseDate registry image tags).filter
                (fun i => i.date.isSome)).filter
              (inWindowB (now - days))).length) := by
    show recentFilterLoop (now - days) []
        (listImageTagsSorted parseDate registry image tags) = _
    conv_lhs => rw [hdecomp]
    rw [recentFilterLoop_append,
      recentFilterLoop_dated (now - days) _ hD [],
      recentFilterLoop_undated (now - days) _ hU _]
    simp only [List.nil_append]
  constructor
  · rw [hmain, hDW]
  · rw [hmain]
    have hsub : List.Sublist
        (((listImageTagsSorted parseDate registry image tags).filter
            (fun i => i.date.isSome)).filter (inWindowB (now - days)) ++
          ((listImageTagsSorted parseDate registry image tags).filter
              (fun i => i.date.isNone)).take
            (20 -
              (((listImageTagsSorted parseDate registry image
                  tags).filter (fun i => i.date.isSome)).filter
                (inWindowB (now - days))).length))
        ((listImageTagsSorted parseDate registry image tags).filter
            (fun i => i.date.isSome) ++
          (listImageTagsSorted parseDate registry image tags).filter
            (fun i => i.date.isNone)) :=
      List.Sublist.append (List.filter_sublist _) (List.take_sublist _ _)
    rw [← hdecomp] at hsub
    exact List.Pairwise.sublist hsub hpair

theorem splitNl_ne_nil (cs : List Char) : splitNl cs ≠ [] := by
  induction cs with
  | nil => simp [splitNl]
  | cons c rest ih =>
      cases h : splitNl rest with
      | nil => exact absurd h ih
      | cons seg segs =>
          by_cases hc : c = '\n'
          · simp [splitNl, h, hc]
          · simp [splitNl, h, hc]

theorem noNl_splitNl (cs : List Char) :
    ∀ seg ∈ splitNl cs, '\n' ∉ seg := by
  induction cs with
  | nil =>
      intro seg hseg
      simp [splitNl] at hseg
      simp [hseg]
  | cons c rest ih =>
      intro seg hseg
      cases h : splitNl rest with
      | nil => exact absurd h (splitNl_ne_nil rest)
      | cons s ss =>
          rw [h] at ih
          simp only [splitNl, h] at hseg
          by_cases hc : c = '\n'
          · rw [if_pos hc] at hseg
            rcases List.mem_cons.mp hseg with hseg | hseg
            · simp [hseg]
            · exact ih seg hseg
          · rw [if_neg hc] at hseg
            rcases List.mem_cons.mp hseg with hseg | hseg
            · subst hseg
              intro hmem
              rcases List.mem_cons.mp hmem with hmem | hmem
              · exact hc hmem.symm
              · exact ih s (List.mem_cons_self s ss) hmem
            · exact ih seg (List.mem_cons_of_mem s hseg)

theorem splitNl_of_noNl (cs : List Char) (h : '\n' ∉ cs) :
    splitNl cs = [cs] := by
  induction cs with
  | nil => rfl
  | cons c rest ih =>
      have hc : c ≠ '\n' := fun heq => h (heq ▸ List.mem_cons_self c rest)
      have hrest : '\n' ∉ rest := fun hmem => h (List.mem_cons_of_mem c hmem)
      simp [splitNl, ih hrest, hc]

theorem glueSplit_cons (s : List Char) (ss sb : List (List Char))
    (h : ss ≠ []) : glueSplit (s :: ss) sb = s :: glueSplit ss sb := by
  cases ss with
  | nil => exact absurd rfl h
  | cons x xs =>
      simp [glueSplit, List.getLastD_cons]

theorem splitNl_append (a b : List Char) :
    splitNl (a ++ b) = glueSplit (splitNl a) (splitNl b) := by
  induction a with
  | nil =>
      cases hs : splitNl b with
      | nil => exact absurd hs (splitNl_ne_nil b)
      | cons s ss => simp [glueSplit, splitNl, hs]
  | cons c a' ih =>
      rw [List.cons_append]
      cases hs : splitNl (a' ++ b) with
      | nil => exact absurd hs (splitNl_ne_nil _)
      | cons s ss =>
          cases hsa : splitNl a' with
          | nil => exact absurd hsa (splitNl_ne_nil a')
          | cons t ts =>
              have hglue := ih
              rw [hsa, hs] at hglue
              by_cases hc : c = '\n'
              · simp only [splitNl, hs, if_pos hc]
                rw [hsa]
                show [] :: s :: ss = glueSplit ([] :: t :: ts) (splitNl b)
                rw [glueSplit_cons _ _ _ (by simp)]
                exact congrArg (List.cons []) hglue
              · simp only [splitNl, hs, if_neg hc]
                rw [hsa]
                show (c :: s) :: ss = glueSplit ((c :: t) :: ts) (splitNl b)
                cases ts with
                | nil =>
                    have hga : glueSplit [t] (splitNl b) =
                        (t ++ (splitNl b).headD []) :: (splitNl b).tail := rfl
                    have hgc : glueSplit [c :: t] (splitNl b) =
                        ((c :: t) ++ (splitNl b).headD []) ::
                          (splitNl b).tail := rfl
                    rw [hga] at hglue
                    rw [hgc]
                    injection hglue with h1 h2
                    rw [h1, h2]
                    rfl
                | cons u us =>
                    rw [glueSplit_cons _ _ _ (by simp)] at hglue
                    injection hglue with h1 h2
                    rw [glueSplit_cons _ _ _ (by simp), ← h1, ← h2]

theorem dropLast_getLastD {α : Type} (l : List α) (d : α) (h : l ≠ []) :
    l.dropLast ++ [l.getLastD d] = l := by
  induction l generalizing d with
  | nil => exact absurd rfl h
  | cons a l' ih =>
      cases l' with
      | nil => rfl
      | cons b l'' =>
          rw [List.dropLast_cons₂, List.getLastD_cons, List.cons_append]
          rw [ih a (by simp)]

theorem getLastD_append {α : Type} (x y : List α) (d : α) (h : y ≠ []) :
    (x ++ y).getLastD d = y.getLastD d := by
  induction x generalizing d with
  | nil => rfl
  | cons a x' ih =>
      rw [List.cons_append, List.getLastD_cons, ih a]
      cases y with
      | nil => exact absurd rfl h
      | cons b y' => rw [List.getLastD_cons, List.getLastD_cons]

theorem dropLast_append_ne_nil {α : Type} (x y : List α) (h : y ≠ []) :
    (x ++ y).dropLast = x ++ y.dropLast := by
  induction x with
  | nil => rfl
  | cons a x' ih =>
      cases hxy : x' ++ y with
      | nil =>
          rcases List.append_eq_nil.mp hxy with ⟨_, hy⟩
          exact absurd hy h
      | cons b l =>
          show (a :: (x' ++ y)).dropLast = a :: x' ++ y.dropLast
          rw [hxy, List.dropLast_cons₂, ← hxy, ih]
          rfl

theorem headD_cons_tail {α : Type} (l : List α) (d : α) (h : l ≠ []) :
    l.headD d :: l.tail = l := by
  cases l with
  | nil => exact absurd rfl h
  | cons a l' => rfl

theorem endsWithNl_cons (c : Char) (l : List Char) (h : l ≠ []) :
    endsWithNl (c :: l) = endsWithNl l := by
  cases l with
  | nil => exact absurd rfl h
  | cons b l' =>
      simp [endsWithNl, List.getLast?_cons_cons]

theorem endsWithNl_append (a b : List Char) (h : b ≠ []) :
    endsWithNl (a ++ b) = endsWithNl b := by
  induction a with
  | nil => rfl
  | cons c a' ih =>
      rw [List.cons_append, endsWithNl_cons c (a' ++ b)
        (by simp [h]), ih]

theorem endsWithNl_ne_nil (cs : List Char) (h : endsWithNl cs = true) :
    cs ≠ [] := by
  intro hnil
  rw [hnil] at h
  simp [endsWithNl] at h

theorem endsWithNl_decomp (cs : List Char) (h : endsWithNl cs = true) :
    cs = cs.dropLast ++ ['\n'] := by
  have hne : cs ≠ [] := endsWithNl_ne_nil cs h
  have hlast : cs.getLastD '\n' = '\n' := by
    unfold endsWithNl at h
    cases hg : cs.getLast? with
    | none => rw [hg] at h; simp at h
    | some c =>
        rw [hg] at h
        simp at h
        rw [List.getLastD_eq_getLast?, hg, h]
        rfl
  have hd := dropLast_getLastD cs '\n' hne
  rw [hlast] at hd
  exact hd.symm

theorem splitNl_concat_newline (xs : List Char) :
    splitNl (xs ++ ['\n']) = splitNl xs ++ [[]] := by
  rw [splitNl_append]
  show glueSplit (splitNl xs) [[], []] = splitNl xs ++ [[]]
  cases hs : splitNl xs with
  | nil => exact absurd hs (splitNl_ne_nil xs)
  | cons s ss =>
      unfold glueSplit
      simp only [List.headD, List.tail]
      rw [List.append_nil]
      have hd := dropLast_getLastD (s :: ss) ([] : List Char) (by simp)
      calc (s :: ss).dropLast ++ [(s :: ss).getLastD [], []]
          = ((s :: ss).dropLast ++ [(s :: ss).getLastD []]) ++ [[]] := by
            simp
        _ = (s :: ss) ++ [[]] := by rw [hd]

theorem splitNl_last_empty (cs : List Char) (h : endsWithNl cs = true) :
    (splitNl cs).getLastD [] = [] := by
  have hdec := endsWithNl_decomp cs h
  rw [hdec, splitNl_concat_newline]
  rw [getLastD_append _ [[]] [] (by simp)]
  rfl

theorem filter_blank_concat_empty (sa : List (List Char))
    (z : List (List Char)) :
    ((sa ++ [[]]) ++ z).filter (fun l => ! isBlankLine l) =
      (sa ++ z).filter (fun l => ! isBlankLine l) := by
  rw [List.append_assoc, List.filter_append, List.filter_append]
  congr 1
  rw [List.filter_append]
  have hblank : ([[]] : List (List Char)).filter
      (fun l => ! isBlankLine l) = [] := by
    simp [isBlankLine]
  rw [hblank, List.nil_append]

theorem splitChunk_merge (p d1 d2 : List Char) (hp : '\n' ∉ p) :
    (splitChunk p (d1 ++ d2)).2 = (splitChunk (splitChunk p d1).2 d2).2 ∧
    (splitChunk p (d1 ++ d2)).1.filter (fun l => ! isBlankLine l) =
      ((splitChunk p d1).1 ++
          (splitChunk (splitChunk p d1).2 d2).1).filter
        (fun l => ! isBlankLine l) := by
  by_cases h1 : endsWithNl d1 = true
  · have hd1ne : d1 ≠ [] := endsWithNl_ne_nil d1 h1
    have hpd1 : endsWithNl (p ++ d1) = true := by
      rw [endsWithNl_append p d1 hd1ne]
      exact h1
    have hsa : splitNl (p ++ d1) =
        splitNl ((p ++ d1).dropLast) ++ [[]] := by
      conv_lhs => rw [endsWithNl_decomp _ hpd1]
      exact splitNl_concat_newline _
    have hr1 : splitChunk p d1 = (splitNl (p ++ d1), []) := by
      unfold splitChunk
      rw [if_pos h1]
    by_cases hd2 : d2 = []
    · subst hd2
      rw [List.append_nil, hr1]
      refine ⟨rfl, ?_⟩
      show (splitNl (p ++ d1)).filter _ =
        ((splitNl (p ++ d1)) ++ (splitChunk [] []).1).filter _
      have hc0 : (splitChunk ([] : List Char) []).1 = [] := rfl
      rw [hc0, List.append_nil]
    · have hend12 : endsWithNl (d1 ++ d2) = endsWithNl d2 :=
        endsWithNl_append d1 d2 hd2
      have hglue : splitNl (p ++ (d1 ++ d2)) =
          splitNl ((p ++ d1).dropLast) ++ splitNl d2 := by
        rw [← List.append_assoc, splitNl_append (p ++ d1) d2, hsa]
        cases hsb : splitNl d2 with
        | nil => exact absurd hsb (splitNl_ne_nil d2)
        | cons s ss =>
            unfold glueSplit
            rw [List.dropLast_concat,
              getLastD_append _ [[]] [] (by simp)]
            show _ ++ (([] : List Char) ++ s) :: ss = _
            rw [List.nil_append]
      rw [hr1]
      by_cases h2 : endsWithNl d2 = true
      · have hr : splitChunk p (d1 ++ d2) =
            (splitNl (p ++ (d1 ++ d2)), []) := by
          unfold splitChunk
          rw [if_pos (by rw [hend12]; exact h2)]
        have hr2 : splitChunk [] d2 = (splitNl d2, []) := by
          unfold splitChunk
          rw [if_pos h2]
          rfl
        rw [hr, hr2]
        refine ⟨rfl, ?_⟩
        show (splitNl (p ++ (d1 ++ d2))).filter _ =
          ((splitNl (p ++ d1)) ++ splitNl d2).filter _
        rw [hglue, hsa]
        exact (filter_blank_concat_empty _ _).symm
      · have hr : splitChunk p (d1 ++ d2) =
            ((splitNl (p ++ (d1 ++ d2))).dropLast,
              (splitNl (p ++ (d1 ++ d2))).getLastD []) := by
          unfold splitChunk
          rw [if_neg (by rw [hend12]; exact h2)]
        have hr2 : splitChunk [] d2 =
            ((splitNl d2).dropLast, (splitNl d2).getLastD []) := by
          unfold splitChunk
          rw [if_neg h2]
          rfl
        rw [hr, hr2]
        constructor
        · show (splitNl (p ++ (d1 ++ d2))).getLastD [] =
            (splitNl d2).getLastD []
          rw [hglue, getLastD_append _ _ _ (splitNl_ne_nil d2)]
        · show ((splitNl (p ++ (d1 ++ d2))).dropLast).filter _ =
            ((splitNl (p ++ d1)) ++ (splitNl d2).dropLast).filter _
          rw [hglue, dropLast_append_ne_nil _ _ (splitNl_ne_nil d2), hsa]
          exact (filter_blank_concat_empty _ _).symm
  · have hr1 : splitChunk p d1 =
        ((splitNl (p ++ d1)).dropLast,
          (splitNl (p ++ d1)).getLastD []) := by
      unfold splitChunk
      rw [if_neg h1]
    have hp1mem : (splitNl (p ++ d1)).getLastD [] ∈ splitNl (p ++ d1) := by
      have hd := dropLast_getLastD (splitNl (p ++ d1)) []
        (splitNl_ne_nil _)
      have hx : (splitNl (p ++ d1)).getLastD [] ∈
          (splitNl (p ++ d1)).dropLast ++
            [(splitNl (p ++ d1)).getLastD []] :=
        List.mem_append_right _ (List.mem_singleton_self _)
      rw [hd] at hx
      exact hx
    have hp1 : '\n' ∉ (splitNl (p ++ d1)).getLastD [] :=
      noNl_splitNl (p ++ d1) _ hp1mem
    have hsplit1 : splitNl ((splitNl (p ++ d1)).getLastD []) =
        [(splitNl (p ++ d1)).getLastD []] := splitNl_of_noNl _ hp1
    have hkey : splitNl (p ++ (d1 ++ d2)) =
        (splitNl (p ++ d1)).dropLast ++
          splitNl ((splitNl (p ++ d1)).getLastD [] ++ d2) := by
      rw [← List.append_assoc, splitNl_append (p ++ d1) d2,
        splitNl_append _ d2, hsplit1]
      rfl
    by_cases hd2 : d2 = []
    · subst hd2
      rw [List.append_nil, hr1]
      have hr2 : splitChunk ((splitNl (p ++ d1)).getLastD []) [] =
          ([], (splitNl (p ++ d1)).getLastD []) := by
        unfold splitChunk
        rw [if_neg (by simp [endsWithNl])]
        rw [List.append_nil, hsplit1]
        rfl
      rw [hr2]
      refine ⟨rfl, ?_⟩
      show ((splitNl (p ++ d1)).dropLast).filter _ =
        ((splitNl (p ++ d1)).dropLast ++ []).filter _
      rw [List.append_nil]
    · rw [hr1]
      by_cases h2 : endsWithNl d2 = true
      · have hr : splitChunk p (d1 ++ d2) =
            (splitNl (p ++ (d1 ++ d2)), []) := by
          unfold splitChunk
          rw [if_pos (by rw [endsWithNl_append d1 d2 hd2]; exact h2)]
        have hr2 : splitChunk ((splitNl (p ++ d1)).getLastD []) d2 =
            (splitNl ((splitNl (p ++ d1)).getLastD [] ++ d2), []) := by
          unfold splitChunk
          rw [if_pos h2]
        rw [hr, hr2]
        refine ⟨rfl, ?_⟩
        show (splitNl (p ++ (d1 ++ d2))).filter _ =
          ((splitNl (p ++ d1)).dropLast ++
            splitNl ((splitNl (p ++ d1)).getLastD [] ++ d2)).filter _
        rw [hkey]
      · have hr : splitChunk p (d1 ++ d2) =
            ((splitNl (p ++ (d1 ++ d2))).dropLast,
              (splitNl (p ++ (d1 ++ d2))).getLastD []) := by
          unfold splitChunk
          rw [if_neg (by rw [endsWithNl_append d1 d2 hd2]; exact h2)]
        have hr2 : splitChunk ((splitNl (p ++ d1)).getLastD []) d2 =
            ((splitNl ((splitNl (p ++ d1)).getLastD [] ++ d2)).dropLast,
              (splitNl ((splitNl (p ++ d1)).getLastD [] ++ d2)).getLastD
                []) := by
          unfold splitChunk
          rw [if_neg h2]
        rw [hr, hr2]
        constructor
        · show (splitNl (p ++ (d1 ++ d2))).getLastD [] =
            (splitNl ((splitNl (p ++ d1)).getLastD [] ++ d2)).getLastD []
          rw [hkey, getLastD_append _ _ _ (splitNl_ne_nil _)]
        · show ((splitNl (p ++ (d1 ++ d2))).dropLast).filter _ =
            ((splitNl (p ++ d1)).dropLast ++
              (splitNl ((splitNl (p ++ d1)).getLastD [] ++
                d2)).dropLast).filter _
          rw [hkey, dropLast_append_ne_nil _ _ (splitNl_ne_nil _)]

theorem processLines_spec (now : Int) (L : List (List Char)) :
    ∀ (t0 : ProgressTracker) (evs0 : List ProgressEvent),
      L.foldl
        (fun acc line =>
          if isBlankLine line then acc
          else
            let r := addOutputLine acc.1 now (String.mk line)
            (r.1, acc.2 ++ [r.2]))
        (t0, evs0) =
      ({ t0 with
          outputBuffer :=
            (L.filter (fun l => ! isBlankLine l)).foldl
              (fun b l =>
                pushCapped b ⟨cleanAnsiCodes (String.mk l), now⟩)
              t0.outputBuffer },
        evs0 ++ (L.filter (fun l => ! isBlankLine l)).map
          (fun l =>
            ProgressEvent.progress (cleanAnsiCodes (String.mk l)) now)) := by
  induction L with
  | nil =>
      intro t0 evs0
      simp
  | cons l L' ih =>
      intro t0 evs0
      by_cases hb : isBlankLine l
      · rw [List.foldl_cons, if_pos hb, ih t0 evs0,
          List.filter_cons_of_neg (by simp [hb])]
      · rw [List.foldl_cons, if_neg hb]
        show L'.foldl _
            ({ t0 with
                outputBuffer := pushCapped t0.outputBuffer
                  ⟨cleanAnsiCodes (String.mk l), now⟩ },
              evs0 ++ [ProgressEvent.progress
                (cleanAnsiCodes (String.mk l)) now]) = _
        rw [ih _ _, List.filter_cons_of_pos (by simp [hb])]
        rw [List.foldl_cons, List.map_cons]
        rw [List.append_assoc]
        rfl

theorem updateOutput_spec (t : ProgressTracker) (now : Int) (data : String)
    (ht : t.isTracking = true) :
    updateOutput t now data =
      ({ t with
          lineBuffer :=
            String.mk (splitChunk t.lineBuffer.data data.data).2,
          outputBuffer :=
            ((splitChunk t.lineBuffer.data data.data).1.filter
                (fun l => ! isBlankLine l)).foldl
              (fun b l =>
                pushCapped b ⟨cleanAnsiCodes (String.mk l), now⟩)
              t.outputBuffer },
        ((splitChunk t.lineBuffer.data data.data).1.filter
            (fun l => ! isBlankLine l)).map
          (fun l =>
            ProgressEvent.progress (cleanAnsiCodes (String.mk l)) now)) := by
  have hif : updateOutput t now data =
      (splitChunk t.lineBuffer.data data.data).1.foldl
        (fun acc line =>
          if isBlankLine line then acc
          else
            let r := addOutputLine acc.1 now (String.mk line)
            (r.1, acc.2 ++ [r.2]))
        ({ t with lineBuffer :=
            String.mk (splitChunk t.lineBuffer.data data.data).2 }, []) := by
    unfold updateOutput
    rw [ht]
    rfl
  rw [hif, processLines_spec now _ _ []]
  rw [List.nil_append]

theorem updateOutput_isTracking (t : ProgressTracker) (now : Int)
    (data : String) (ht : t.isTracking = true) :
    (updateOutput t now data).1.isTracking = true := by
  rw [updateOutput_spec t now data ht]
  exact ht

theorem updateOutput_lineBuffer (t : ProgressTracker) (now : Int)
    (data : String) (ht : t.isTracking = true) :
    (updateOutput t now data).1.lineBuffer.data =
      (splitChunk t.lineBuffer.data data.data).2 := by
  rw [updateOutput_spec t now data ht]

theorem updateOutput_noNl (t : ProgressTracker) (now : Int)
    (data : String) (ht : t.isTracking = true) :
    '\n' ∉ (updateOutput t now data).1.lineBuffer.data := by
  rw [updateOutput_lineBuffer t now data ht]
  unfold splitChunk
  by_cases h : endsWithNl data.data = true
  · rw [if_pos h]
    simp
  · rw [if_neg h]
    show '\n' ∉ (splitNl (t.lineBuffer.data ++ data.data)).getLastD []
    apply noNl_splitNl
    have hd := dropLast_getLastD
      (splitNl (t.lineBuffer.data ++ data.data)) [] (splitNl_ne_nil _)
    have hx : (splitNl (t.lineBuffer.data ++ data.data)).getLastD [] ∈
        (splitNl (t.lineBuffer.data ++ data.data)).dropLast ++
          [(splitNl (t.lineBuffer.data ++ data.data)).getLastD []] :=
      List.mem_append_right _ (List.mem_singleton_self _)
    rw [hd] at hx
    exact hx

theorem updateOutput_merge (t : ProgressTracker) (now : Int)
    (d1 d2 : String) (ht : t.isTracking = true)
    (hb : '\n' ∉ t.lineBuffer.data) :
    updateOutput t now (d1 ++ d2) =
      ((updateOutput (updateOutput t now d1).1 now d2).1,
        (updateOutput t now d1).2 ++
          (updateOutput (updateOutput t now d1).1 now d2).2) := by
  have ht1 : (updateOutput t now d1).1.isTracking = true :=
    updateOutput_isTracking t now d1 ht
  have hm := splitChunk_merge t.lineBuffer.data d1.data d2.data hb
  obtain ⟨hm1, hm2⟩ := hm
  have h1 := updateOutput_spec t now d1 ht
  have h2 := updateOutput_spec (updateOutput t now d1).1 now d2 ht1
  rw [h1] at h2
  rw [updateOutput_spec t now (d1 ++ d2) ht, h1, h2]
  dsimp only
  rw [String.data_append, hm1, hm2, List.filter_append,
    List.foldl_append, List.map_append]

theorem runChunks_acc (now : Int) (ds : List String) :
    ∀ (t : ProgressTracker) (acc : List ProgressEvent),
      ds.foldl
        (fun acc2 data =>
          let r := updateOutput acc2.1 now data
          (r.1, acc2.2 ++ r.2))
        (t, acc) =
      ((runChunks t now ds).1, acc ++ (runChunks t now ds).2) := by
  induction ds with
  | nil =>
      intro t acc
      simp [runChunks]
  | cons d ds' ih =>
      intro t acc
      show ds'.foldl _
          ((updateOutput t now d).1, acc ++ (updateOutput t now d).2) = _
      rw [ih]
      have hrhs : runChunks t now (d :: ds') =
          ((runChunks (updateOutput t now d).1 now ds').1,
            (updateOutput t now d).2 ++
              (runChunks (updateOutput t now d).1 now ds').2) := by
        show ds'.foldl _
            ((updateOutput t now d).1, [] ++ (updateOutput t now d).2) = _
        rw [ih]
        simp
      rw [hrhs, List.append_assoc]

theorem runChunks_cons (t : ProgressTracker) (now : Int) (d : String)
    (ds : List String) :
    runChunks t now (d :: ds) =
      ((runChunks (updateOutput t now d).1 now ds).1,
        (updateOutput t now d).2 ++
          (runChunks (updateOutput t now d).1 now ds).2) := by
  show ds.foldl _
      ((updateOutput t now d).1, [] ++ (updateOutput t now d).2) = _
  rw [runChunks_acc]
  simp

theorem string_join_cons (d : String) (ds : List String) :
    String.join (d :: ds) = d ++ String.join ds := by
  have haux : ∀ (l : List String) (a : String),
      l.foldl (fun r s => r ++ s) a =
        a ++ l.foldl (fun r s => r ++ s) "" := by
    intro l
    induction l with
    | nil =>
        intro a
        simp [String.append_empty]
    | cons x xs ih =>
        intro a
        rw [List.foldl_cons, List.foldl_cons, ih (a ++ x), ih ("" ++ x),
          String.empty_append, String.append_assoc]
  show (d :: ds).foldl (fun r s => r ++ s) "" = _
  rw [List.foldl_cons, haux, String.empty_append]
  rfl

theorem updateOutput_empty (t : ProgressTracker) (now : Int)
    (ht : t.isTracking = true) (hb : '\n' ∉ t.lineBuffer.data) :
    updateOutput t now "" = (t, []) := by
  rw [updateOutput_spec t now "" ht]
  have hsp : splitChunk t.lineBuffer.data ("" : String).data =
      ([], t.lineBuffer.data) := by
    show splitChunk t.lineBuffer.data [] = _
    unfold splitChunk
    rw [if_neg (by simp [endsWithNl])]
    rw [List.append_nil, splitNl_of_noNl _ hb]
    rfl
  rw [hsp]
  rfl

/-- C4 (amended): for every sequence of `update_output` chunks fed to
an active tracker whose pending buffer holds no newline, the chunk
boundaries are invisible — feeding the chunks one at a time produces
exactly the same final state and event sequence as feeding their
concatenation at once (any trailing text without a terminating newline
is held in the pending buffer and prefixed onto the next chunk); the
events emitted are exactly one `updateProgress` event per completed
line that contains non-whitespace, carrying the ANSI-cleaned line, in
the order the lines were produced (completed lines that are empty or
whitespace-only are discarded without an event, which is where the
original claim fails); the pending buffer afterwards is exactly the
unterminated trailing text. -/
theorem update_output_line_events (t : ProgressTracker) (now : Int)
    (chunks : List String) (ht : t.isTracking = true)
    (hb : '\n' ∉ t.lineBuffer.data) :
    runChunks t now chunks = updateOutput t now (String.join chunks) ∧
    (runChunks t now chunks).2 =
      ((splitChunk t.lineBuffer.data (String.join chunks).data).1.filter
          (fun l => ! isBlankLine l)).map
        (fun l =>
          ProgressEvent.progress (cleanAnsiCodes (String.mk l)) now) ∧
    (runChunks t now chunks).1.lineBuffer.data =
      (splitChunk t.lineBuffer.data (String.join chunks).data).2 := by
  have hmain : runChunks t now chunks =
      updateOutput t now (String.join chunks) := by
    induction chunks generalizing t with
    | nil =>
        show (t, []) = updateOutput t now (String.join [])
        rw [show String.join [] = "" from rfl,
          updateOutput_empty t now ht hb]
    | cons d ds ih =>
        rw [runChunks_cons, string_join_cons,
          updateOutput_merge t now d (String.join ds) ht hb,
          ih (updateOutput t now d).1
            (updateOutput_isTracking t now d ht)
            (updateOutput_noNl t now d ht)]
  refine ⟨hmain, ?_, ?_⟩
  · rw [hmain, updateOutput_spec t now (String.join chunks) ht]
  · rw [hmain, updateOutput_lineBuffer t now (String.join chunks) ht]

theorem update_output_line_events_wit :
    ((startTracking initialTracker 0 "op").1.isTracking = true ∧
      '\n' ∉ (startTracking initialTracker 0 "op").1.lineBuffer.data) ∧
    runChunks (startTracking initialTracker 0 "op").1 0 ["ab", "c\nd"] =
      updateOutput (startTracking initialTracker 0 "op").1 0
        (String.join ["ab", "c\nd"]) :=
  ⟨⟨rfl, by decide⟩,
    (update_output_line_events (startTracking initialTracker 0 "op").1 0
      ["ab", "c\nd"] rfl (by decide)).1⟩

/-- C4 counterexample: with tracking active and an empty pending
buffer, the single chunk consisting of the lines `x`, an empty line,
and `y` (each newline-terminated) completes three lines but emits only
two progress events — the empty completed line is dropped by the
`line.strip()` test instead of being emitted as a discrete event, so
not every completed line yields exactly one event. -/
theorem update_output_blank_line_cex :
    (updateOutput (startTracking initialTracker 0 "op").1 0
        "x\n\ny\n").2 =
      [ProgressEvent.progress "x" 0, ProgressEvent.progress "y" 0] ∧
    (splitChunk (startTracking initialTracker 0 "op").1.lineBuffer.data
        ("x\n\ny\n".data)).1 = [['x'], [], ['y'], []] := by
  constructor
  · rfl
  · rfl

theorem pushCapped_length (b : List OutputEntry) (e : OutputEntry) :
    (pushCapped b e).length = min (b.length + 1) BUFFER_MAXLEN := by
  unfold pushCapped
  by_cases h : (b ++ [e]).length > BUFFER_MAXLEN
  · rw [if_pos h, List.length_drop]
    rw [List.length_append, List.length_singleton] at *
    omega
  · rw [if_neg h]
    rw [List.length_append, List.length_singleton] at *
    omega

theorem foldl_pushCapped_length {β : Type} (f : β → OutputEntry)
    (L : List β) :
    ∀ b : List OutputEntry, b.length ≤ BUFFER_MAXLEN →
      (L.foldl (fun acc x => pushCapped acc (f x)) b).length =
        min (b.length + L.length) BUFFER_MAXLEN := by
  induction L with
  | nil =>
      intro b hb
      show b.length = min (b.length + 0) BUFFER_MAXLEN
      omega
  | cons x L' ih =>
      intro b hb
      rw [List.foldl_cons]
      have hb' : (pushCapped b (f x)).length ≤ BUFFER_MAXLEN := by
        rw [pushCapped_length]
        omega
      rw [ih _ hb', pushCapped_length, List.length_cons]
      omega

theorem updateOutput_session (t : ProgressTracker) (now : Int)
    (data : String) (ht : t.isTracking = true)
    (hlen : t.outputBuffer.length ≤ BUFFER_MAXLEN) :
    (updateOutput t now data).1.startTime = t.startTime ∧
    (updateOutput t now data).1.operationName = t.operationName ∧
    (updateOutput t now data).1.outputBuffer.length =
      min (t.outputBuffer.length + (updateOutput t now data).2.length)
        BUFFER_MAXLEN := by
  rw [updateOutput_spec t now data ht]
  refine ⟨rfl, rfl, ?_⟩
  dsimp only
  rw [List.length_map]
  exact foldl_pushCapped_length
    (fun l => ⟨cleanAnsiCodes (String.mk l), now⟩) _ t.outputBuffer hlen

theorem runChunks_session (now : Int) (chunks : List String) :
    ∀ t : ProgressTracker, t.isTracking = true →
      t.outputBuffer.length ≤ BUFFER_MAXLEN →
      (runChunks t now chunks).1.isTracking = true ∧
      (runChunks t now chunks).1.startTime = t.startTime ∧
      (runChunks t now chunks).1.operationName = t.operationName ∧
      (runChunks t now chunks).1.outputBuffer.length =
        min (t.outputBuffer.length + (runChunks t now chunks).2.length)
          BUFFER_MAXLEN := by
  induction chunks with
  | nil =>
      intro t ht hlen
      refine ⟨ht, rfl, rfl, ?_⟩
      show t.outputBuffer.length =
        min (t.outputBuffer.length + ([] : List ProgressEvent).length)
          BUFFER_MAXLEN
      rw [List.length_nil]
      omega
  | cons d ds ih =>
      intro t ht hlen
      rw [runChunks_cons]
      obtain ⟨hs1, hs2, hs3⟩ := updateOutput_session t now d ht hlen
      have ht' := updateOutput_isTracking t now d ht
      have hlen' : (updateOutput t now d).1.outputBuffer.length ≤
          BUFFER_MAXLEN := by
        rw [hs3]
        omega
      obtain ⟨ih1, ih2, ih3, ih4⟩ := ih (updateOutput t now d).1 ht' hlen'
      refine ⟨ih1, ih2.trans hs1, ih3.trans hs2, ?_⟩
      show (runChunks (updateOutput t now d).1 now ds).1.outputBuffer.length
        = min (t.outputBuffer.length +
            ((updateOutput t now d).2 ++
              (runChunks (updateOutput t now d).1 now ds).2).length)
          BUFFER_MAXLEN
      rw [ih4, List.length_append]
      omega

theorem trackerComplete_noflush (t : ProgressTracker) (now : Int)
    (success : Bool) (message : String) (ht : t.isTracking = true)
    (hlb : t.lineBuffer = "") :
    trackerComplete t now success message =
      ({ t with isTracking := false },
        [ProgressEvent.completed t.operationName success
          (if message = "" then
             (if success then "Operation completed successfully"
              else "Operation failed")
           else message)
          (match t.startTime with
           | some s => now - s
           | none => 0)
          t.outputBuffer.length]) := by
  have hcond : ¬ t.lineBuffer ≠ "" := by simp [hlb]
  unfold trackerComplete
  rw [ht]
  dsimp only
  simp only [if_neg hcond]
  rfl

theorem trackerComplete_flush (t : ProgressTracker) (now : Int)
    (success : Bool) (message : String) (ht : t.isTracking = true)
    (hlb : t.lineBuffer ≠ "") :
    trackerComplete t now success message =
      ({ t with
          outputBuffer := pushCapped t.outputBuffer
            ⟨cleanAnsiCodes t.lineBuffer, now⟩,
          lineBuffer := "", isTracking := false },
        [ProgressEvent.progress (cleanAnsiCodes t.lineBuffer) now,
          ProgressEvent.completed t.operationName success
            (if message = "" then
               (if success then "Operation completed successfully"
                else "Operation failed")
             else message)
            (match t.startTime with
             | some s => now - s
             | none => 0)
            (pushCapped t.outputBuffer
              ⟨cleanAnsiCodes t.lineBuffer, now⟩).length]) := by
  unfold trackerComplete
  rw [ht]
  dsimp only
  simp only [if_pos hlb]
  rfl

/-- C5 (amended): for every session — `start_tracking`, any sequence of
`update_output` chunks, then `complete` — `complete` flushes a
non-empty pending partial line as one final output line (bypassing the
blank-line test of `update_output`), marks tracking inactive, and emits
one completion event carrying the elapsed time since `start_tracking`
and the length of the bounded output buffer, which equals the total
number of lines emitted during the session capped at 1000 (the
`deque(maxlen=1000)` capacity), not the uncapped total. -/
theorem complete_flush_and_count (name : String)
    (now0 now1 now2 : Int) (chunks : List String) (success : Bool)
    (message : String) :
    (trackerComplete
        (runChunks (startTracking initialTracker now0 name).1 now1
          chunks).1 now2 success message).1.isTracking = false ∧
    (trackerComplete
        (runChunks (startTracking initialTracker now0 name).1 now1
          chunks).1 now2 success message).2 =
      (if (runChunks (startTracking initialTracker now0 name).1 now1
            chunks).1.lineBuffer = "" then []
       else
         [ProgressEvent.progress
           (cleanAnsiCodes
             (runChunks (startTracking initialTracker now0 name).1 now1
               chunks).1.lineBuffer) now2]) ++
      [ProgressEvent.completed (some name) success
        (if message = "" then
           (if success then "Operation completed successfully"
            else "Operation failed")
         else message)
        (now2 - now0)
        (min
          ((runChunks (startTracking initialTracker now0 name).1 now1
              chunks).2.length +
            (if (runChunks (startTracking initialTracker now0 name).1
                  now1 chunks).1.lineBuffer = "" then 0 else 1))
          BUFFER_MAXLEN)] := by
  obtain ⟨h1, h2, h3, h4⟩ := runChunks_session now1 chunks
    (startTracking initialTracker now0 name).1 rfl
    (show (0 : Nat) ≤ BUFFER_MAXLEN by decide)
  have hop : (runChunks (startTracking initialTracker now0 name).1 now1
      chunks).1.operationName = some name := h3
  have hst : (runChunks (startTracking initialTracker now0 name).1 now1
      chunks).1.startTime = some now0 := h2
  by_cases hlb : (runChunks (startTracking initialTracker now0 name).1
      now1 chunks).1.lineBuffer = ""
  · rw [trackerComplete_noflush _ now2 success message h1 hlb]
    refine ⟨rfl, ?_⟩
    rw [if_pos hlb, if_pos hlb, List.nil_append, hop, hst]
    have hbl : (runChunks (startTracking initialTracker now0 name).1
        now1 chunks).1.outputBuffer.length =
        min ((runChunks (startTracking initialTracker now0 name).1 now1
            chunks).2.length + 0) BUFFER_MAXLEN := by
      rw [h4]
      show min (0 + _) BUFFER_MAXLEN = _
      omega
    rw [hbl]
  · rw [trackerComplete_flush _ now2 success message h1 hlb]
    refine ⟨rfl, ?_⟩
    rw [if_neg hlb, if_neg hlb, hop, hst]
    have hbl : (pushCapped
        (runChunks (startTracking initialTracker now0 name).1 now1
          chunks).1.outputBuffer
        ⟨cleanAnsiCodes
          (runChunks (startTracking initialTracker now0 name).1 now1
            chunks).1.lineBuffer, now2⟩).length =
        min ((runChunks (startTracking initialTracker now0 name).1 now1
            chunks).2.length + 1) BUFFER_MAXLEN := by
      rw [pushCapped_length, h4]
      show min (min (0 + _) BUFFER_MAXLEN + 1) BUFFER_MAXLEN = _
      omega
    rw [hbl]
    rfl

theorem updateOutput_single_line (t : ProgressTracker) (now : Int)
    (ht : t.isTracking = true) (hlb : t.lineBuffer = "") :
    updateOutput t now "a\n" =
      ({ t with
          outputBuffer := pushCapped t.outputBuffer ⟨"a", now⟩,
          lineBuffer := "" },
        [ProgressEvent.progress "a" now]) := by
  rw [updateOutput_spec t now "a\n" ht, hlb]
  rfl

theorem runChunks_replicate (now : Int) :
    ∀ (n : Nat) (t : ProgressTracker), t.isTracking = true →
      t.lineBuffer = "" →
      (runChunks t now (List.replicate n "a\n")).2.length = n ∧
      (runChunks t now (List.replicate n "a\n")).1.lineBuffer = "" := by
  intro n
  induction n with
  | zero =>
      intro t ht hlb
      exact ⟨rfl, hlb⟩
  | succ n ih =>
      intro t ht hlb
      rw [List.replicate_succ, runChunks_cons,
        updateOutput_single_line t now ht hlb]
      obtain ⟨ih1, ih2⟩ := ih
        { t with
            outputBuffer := pushCapped t.outputBuffer ⟨"a", now⟩,
            lineBuffer := "" } ht rfl
      refine ⟨?_, ih2⟩
      show ([ProgressEvent.progress "a" now] ++
        (runChunks _ now (List.replicate n "a\n")).2).length = n + 1
      rw [List.length_append, ih1, List.length_singleton]
      omega

/-- C5 counterexample: a session that streams 1001 newline-terminated
lines emits 1001 progress events, yet the completion event reports a
line count of 1000 — `len(self.output_buffer)` counts the
`deque(maxlen=1000)` buffer, which has already evicted the oldest line,
so the completion event does not carry the total count of lines emitted
during the session. -/
theorem complete_line_count_cap_cex :
    (runChunks (startTracking initialTracker 0 "op").1 0
        (List.replicate 1001 "a\n")).2.length = 1001 ∧
    (trackerComplete
        (runChunks (startTracking initialTracker 0 "op").1 0
          (List.replicate 1001 "a\n")).1 0 true "").2 =
      [ProgressEvent.completed (some "op") true
        "Operation completed successfully" 0 1000] := by
  obtain ⟨hcount, hlb⟩ := runChunks_replicate 0 1001
    (startTracking initialTracker 0 "op").1 rfl rfl
  obtain ⟨h1, h2, h3, h4⟩ := runChunks_session 0
    (List.replicate 1001 "a\n") (startTracking initialTracker 0 "op").1
    rfl (by decide)
  refine ⟨hcount, ?_⟩
  rw [trackerComplete_noflush _ 0 true "" h1 hlb]
  have hop : (runChunks (startTracking initialTracker 0 "op").1 0
      (List.replicate 1001 "a\n")).1.operationName = some "op" := h3
  have hst : (runChunks (startTracking initialTracker 0 "op").1 0
      (List.replicate 1001 "a\n")).1.startTime = some 0 := h2
  have hbl : (runChunks (startTracking initialTracker 0 "op").1 0
      (List.replicate 1001 "a\n")).1.outputBuffer.length = 1000 := by
    rw [h4, hcount]
    show min (0 + 1001) BUFFER_MAXLEN = 1000
    decide
  rw [hop, hst, hbl]
  rfl
